import Mathlib

/-!
Verification of the rust-shell line-to-process pipeline: a shallow embedding
of `src/main.rs` (quote scanner, tokenizer, syntax validator, line assembler,
path expander, redirection resolver, process pipeline) with theorems settling
the specification claims. Rust strings are modelled as `List Char`; byte
offsets of the source coincide with character offsets on the ASCII inputs this
development reasons about. Fallible operations return `Option`, with `none`
standing for a Rust panic where the doc comments say so.
-/

namespace Shell

/-- Characters of a Rust string slice. -/
abbrev Str : Type := List Char

/-- Shorthand turning a Lean string literal into the character-list model. -/
def str (s : String) : Str := s.toList

/-- Whitespace test of Rust `char::is_whitespace` / `str::trim`. -/
def isWs (c : Char) : Bool := c.isWhitespace

/-- Rust `str::starts_with`. -/
def leadsWith : Str → Str → Bool
  | [], _ => true
  | _ :: _, [] => false
  | a :: ps, b :: qs => decide (a = b) && leadsWith ps qs

/-- Rust `str::trim_start`. -/
def trimStart (s : Str) : Str := s.dropWhile isWs

/-- Rust `str::trim_end`. -/
def trimEnd (s : Str) : Str := (s.reverse.dropWhile isWs).reverse

/-- Rust `str::trim`. -/
def trim (s : Str) : Str := trimStart (trimEnd s)

/-- Rust `str::ends_with`. -/
def endsWithTok (t s : Str) : Bool := leadsWith t.reverse s.reverse

/-- The slice `&s[a..b]` of a string (callers establish `a ≤ b ≤ s.len()`). -/
def slice (s : Str) (a b : Nat) : Str := (s.drop a).take (b - a)

/-- Rust `str::match_indices`: offsets of the leftmost non-overlapping
occurrences of `pat`, scanning the suffix starting at absolute offset `pos`.
An empty pattern matches at every offset, as in Rust. The structural `fuel`
argument only bounds the recursion depth; every recursive call shortens the
scanned suffix, so the `s.length + 1` fuel passed by `matchIndices` strictly
exceeds the depth and the fuel-exhausted base case is never reached. -/
def matchIndicesAux (pat : Str) : Nat → Str → Nat → List Nat
  | 0, _, _ => []
  | _ + 1, [], pos => if pat.isEmpty then [pos] else []
  | fuel + 1, c :: rest, pos =>
    if pat.isEmpty then pos :: matchIndicesAux pat fuel rest (pos + 1)
    else if leadsWith pat (c :: rest) then
      pos :: matchIndicesAux pat fuel (rest.drop (pat.length - 1)) (pos + pat.length)
    else matchIndicesAux pat fuel rest (pos + 1)

/-- Offsets of the non-overlapping matches of `pat` in `s`. -/
def matchIndices (pat s : Str) : List Nat := matchIndicesAux pat (s.length + 1) s 0

/-- The double-quote character. -/
def quoteChar : Char := '\x22'

/-- Offsets of the double-quote characters of `s`
(`self.match_indices("\x22")` in `index_in_escape_scope`). -/
def quotePositions (s : Str) : List Nat := matchIndices [quoteChar] s

/-- Number of double quotes of `s` (the parity source of
`buf.matches("\x22").collect::<Vec<_>>().len()` in `load_command_line`). -/
def quoteCount (s : Str) : Nat := (quotePositions s).length

/-- The `(pair[0] + 1, pair[1])` spans built by `index_in_escape_scope` from
the quote offsets via `chunks(2)`; a dangling chunk of size one makes the
source panic on `pair[1]`, modelled as `none`. -/
def escapeScopeSpans : List Nat → Option (List (Nat × Nat))
  | [] => some []
  | [_] => none
  | a :: b :: rest => (escapeScopeSpans rest).map (fun l => (a + 1, b) :: l)

/-- Rust `index_in_escape_scope` (trait `Split`): whether `index` lies inside
a quote span. `none` models the panic on strings with an odd quote count. -/
def index_in_escape_scope (s : Str) (index : Nat) : Option Bool :=
  (escapeScopeSpans (quotePositions s)).map
    (fun spans => spans.any (fun lr => decide (lr.1 ≤ index) && decide (index < lr.2)))

/-- The `.filter(|x| !self.index_in_escape_scope(x.0))` step of the splitting
functions, with the panic of the escape scan propagated as `none`. -/
def filter_escapes {α : Type} (s : Str) (key : α → Nat) : List α → Option (List α)
  | [] => some []
  | x :: xs =>
    match index_in_escape_scope s (key x) with
    | none => none
    | some true => filter_escapes s key xs
    | some false => (filter_escapes s key xs).map (fun l => x :: l)

/-- Breakpoint collection of `split_with_strs`: per token the non-quoted match
occurrences, appended in token order. -/
def collect_breakpoints (s : Str) : List Str → Option (List (Nat × Str))
  | [] => some []
  | t :: ts => do
    let m ← filter_escapes s Prod.fst ((matchIndices t s).map (fun i => (i, t)))
    let r ← collect_breakpoints s ts
    pure (m ++ r)

/-- Ascending insertion modelling `sort_by(|x, y| x.0.cmp(&y.0))`. -/
def insertBp (x : Nat × Str) : List (Nat × Str) → List (Nat × Str)
  | [] => [x]
  | y :: ys => if y.1 ≤ x.1 then y :: insertBp x ys else x :: y :: ys

/-- Sorting the breakpoints ascending by offset. -/
def sortBps (l : List (Nat × Str)) : List (Nat × Str) := l.foldr insertBp []

/-- The cutting loop of `split_with_strs`: a piece `&self[prev..i]` at every
sorted breakpoint, plus the remainder when `prev < self.len()`. The guard
models the slice-bounds panic that overlapping matches would cause. -/
def splitCut (s : Str) : Nat → List (Nat × Str) → Option (List Str)
  | prev, [] => some (if prev < s.length then [s.drop prev] else [])
  | prev, (i, t) :: bps =>
    if prev ≤ i ∧ i ≤ s.length then
      (splitCut s (i + t.length) bps).map (fun ps => slice s prev i :: ps)
    else none

/-- Rust `split_with_strs` (trait `Split`); `none` models a panic. -/
def split_with_strs (s : Str) (tokens : List Str) : Option (List Str) := do
  let bps ← collect_breakpoints s tokens
  splitCut s 0 (sortBps bps)

/-- Offsets of the characters of `s` satisfying `p` (the char-predicate form
of `match_indices`), scanning from absolute offset `pos`. -/
def charPositions (p : Char → Bool) : Str → Nat → List Nat
  | [], _ => []
  | c :: rest, pos =>
    if p c then pos :: charPositions p rest (pos + 1)
    else charPositions p rest (pos + 1)

/-- The run-boundary loop of `split_with_chars`: index `i` contributes its
offset when it starts a run (`i == 0 || pos[i] != pos[i-1]+1`) and again when
it ends one (`i == pos.len()-1 || pos[i] != pos[i+1]-1`). -/
def breakpointsOf (pos : List Nat) : List Nat :=
  (List.range pos.length).flatMap (fun i =>
    (if i = 0 ∨ pos.getD i 0 ≠ pos.getD (i - 1) 0 + 1 then [pos.getD i 0] else []) ++
    (if i = pos.length - 1 ∨ pos.getD i 0 ≠ pos.getD (i + 1) 0 - 1 then [pos.getD i 0] else []))

/-- Rust `chunks(2)` restricted to the full chunks. In `split_with_chars` the
breakpoint list always has even length (every whitespace run pushes exactly
two offsets), so no chunk is ever dangling there. -/
def chunkPairs {β : Type} : List β → List (β × β)
  | a :: b :: rest => (a, b) :: chunkPairs rest
  | _ => []

/-- The cutting loop of `split_with_chars` over `(run_start, run_end)` pairs:
`res.push(&self[prev..pair[0]]); prev = pair[1] + 1`. -/
def cutRuns (s : Str) : Nat → List (Nat × Nat) → List Str
  | prev, [] => if prev < s.length then [s.drop prev] else []
  | prev, (a, b) :: ps => slice s prev a :: cutRuns s (b + 1) ps

/-- Rust `split_with_chars` (trait `Split`); `none` models the panic of the
escape scan on odd quote counts. -/
def split_with_chars (s : Str) (p : Char → Bool) : Option (List Str) := do
  let pos ← filter_escapes s id (charPositions p s 0)
  pure (cutRuns s 0 (chunkPairs (breakpointsOf pos)))

/-- The apostrophe of the syntax-error message. -/
def errQuote : Char := '\x27'

/-- The text of
`format!("shell: syntax error near unexpected token \x27{}\x27", token)`. -/
def errMsg (token : Str) : Str :=
  str "shell: syntax error near unexpected token " ++ (errQuote :: token) ++ [errQuote]

/-- Operator tokens in the priority order of the source (`tokens` vector). -/
def allTokens : List Str := [str ";", str "|", str "&&", str ">>", str "<<", str ">", str "<"]

/-- Continuation tokens `&tokens[1..]` that make `load_command_line` re-read. -/
def contTokens : List Str := [str "|", str "&&", str ">>", str "<<", str ">", str "<"]

/-- Leading tokens `&tokens[..3]` rejected at line start. -/
def leadTokens : List Str := [str ";", str "|", str "&&"]

/-- Inner loop of the operator scan of `catch_sytax_error` over the match
offsets of one token, carrying the recorded occurrences `pos` and `prev_pos`.
For `>`/`<` a match starting at `prev_pos + 1` pops the last recorded
occurrence, resets `prev_pos` to `line.len()` and is itself skipped; otherwise
`prev_pos` becomes the match offset. `none` models the escape-scan panic. -/
def scanOpsInner (line : Str) (token : Str) :
    List Nat → List (Nat × Str) → Nat → Option (List (Nat × Str) × Nat)
  | [], pos, prev => some (pos, prev)
  | i :: is, pos, prev =>
    match index_in_escape_scope line i with
    | none => none
    | some true => scanOpsInner line token is pos prev
    | some false =>
      if token = str ">" ∨ token = str "<" then
        if i = prev + 1 then scanOpsInner line token is pos.dropLast line.length
        else scanOpsInner line token is (pos ++ [(i, token)]) i
      else scanOpsInner line token is (pos ++ [(i, token)]) prev

/-- Outer loop of the operator scan over all tokens, threading `pos` and
`prev_pos` in source order. -/
def scanOpsTokens (line : Str) :
    List Str → List (Nat × Str) → Nat → Option (List (Nat × Str))
  | [], pos, _ => some pos
  | t :: ts, pos, prev =>
    match scanOpsInner line t (matchIndices t line) pos prev with
    | none => none
    | some pr => scanOpsTokens line ts pr.1 pr.2

/-- The recorded operator occurrences of `catch_sytax_error` before sorting
(`pos` after the token loops, starting from `prev_pos = line.len()`). -/
def scanOps (line : Str) : Option (List (Nat × Str)) :=
  scanOpsTokens line allTokens [] line.length

/-- Final walk of `catch_sytax_error`: the trimmed slice strictly between
consecutive sorted operator occurrences must be non-empty. The guard mirrors
the bounds requirement of the slice `&line[prev..index]`. -/
def opWalk (line : Str) : Nat → List (Nat × Str) → Option (Option Str)
  | _, [] => some none
  | prev, (index, token) :: rest =>
    if prev ≤ index ∧ index ≤ line.length then
      if (trim (slice line prev index)).isEmpty then some (some (errMsg token))
      else opWalk line (index + token.length) rest
    else none

/-- Rust `catch_sytax_error` (the name keeps the source spelling): `some none`
is success, `some (some e)` the reported syntax error, outer `none` a panic of
the escape scan. -/
def catch_sytax_error (line0 : Str) : Option (Option Str) :=
  let line := trim line0
  if leadsWith (str ";") line then some (some (errMsg (str ";")))
  else if leadsWith (str "|") line then some (some (errMsg (str "|")))
  else if leadsWith (str "&&") line then some (some (errMsg (str "&&")))
  else
    match scanOps line with
    | none => none
    | some pos => opWalk line 0 (sortBps pos)

/-- Result of one `load_command_line` call: `Ok(nbytes)` with the buffer the
caller passes to `exec_commands`, `Err(e)`, or a panic. -/
inductive LoadRes : Type where
  | okRes (nbytes : Nat) (buf : Str)
  | errRes (e : Str)
  | panicked
deriving DecidableEq, Repr

/-- What one pass of `load_command_line` decides: finish, or recurse on the
grown buffer with the rest of the input. -/
inductive LoadOutcome : Type where
  | done (r : LoadRes)
  | again (stream : List Str) (buf : Str)
deriving DecidableEq, Repr

/-- One pass of the body of `load_command_line`. `stream` is standard input,
one element per physical line exactly as `read_line` appends it (newline
included); an exhausted stream reads zero bytes, which is end of input. -/
def load_step (stream : List Str) (buf0 : Str) : LoadOutcome :=
  let l := stream.headD []
  let rest := stream.tail
  let buf := buf0 ++ l
  if quoteCount buf % 2 = 1 then .again rest buf
  else
    match catch_sytax_error buf with
    | none => .done .panicked
    | some (some e) => .done (.errRes e)
    | some none =>
      if contTokens.any (fun t => endsWithTok t (trimEnd buf)) then .again rest buf
      else .done (.okRes l.length buf)

/-- Rust `load_command_line` with explicit recursion fuel; `none` means the
recursion has not finished within `fuel` reads. -/
def load_command_line : Nat → List Str → Str → Option LoadRes
  | 0, _, _ => none
  | fuel + 1, stream, buf =>
    match load_step stream buf with
    | .done r => some r
    | .again rest buf2 => load_command_line fuel rest buf2

/-- Divergence of `load_command_line`: no amount of fuel finishes it. -/
def loadDiverges (stream : List Str) (buf : Str) : Prop :=
  ∀ fuel, load_command_line fuel stream buf = none

/-- Reaction of `main` to one `load_command_line` result: `Ok(0)` is end of
input and returns from `main`; `Ok(n)` with `n > 0` runs `exec_commands` on
the buffer; `Err(e)` is only printed and the loop continues. -/
inductive MainAct : Type where
  | halt
  | runLine (line : Str)
  | reportError (e : Str)
  | crashed
deriving DecidableEq, Repr

/-- The `match load_command_line(&mut s)` arm of `main`. -/
def main_dispatch : LoadRes → MainAct
  | .okRes 0 _ => .halt
  | .okRes (_ + 1) line => .runLine line
  | .errRes e => .reportError e
  | .panicked => .crashed

/-- External environment of the interpreter: the home directory, filesystem
glob matching (the sorted existing matches of a pattern, empty when none
match), whether opening a file for writing succeeds, and whether spawning a
program succeeds. -/
structure Env : Type where
  home : Str
  globMatches : Str → List Str
  openOk : Str → Bool
  spawnOk : Str → Bool

/-- Rust `match_wild_card` (trait `PathMatcher`): glob expansion degrading to
the literal pattern when nothing matches. -/
def match_wild_card (env : Env) (s : Str) : List Str :=
  let r := env.globMatches s
  if r.isEmpty then [s] else r

/-- Rust `unfold` (trait `PathMatcher`): tilde expansion, with
`home_dir().join(rest)` modelled as separator concatenation. -/
def unfold (env : Env) (s : Str) : Str :=
  if s = str "~" then env.home
  else if leadsWith (str "~/") s then env.home ++ str "/" ++ s.drop 2
  else s

/-- Rust `parse_file_path`; `none` is the ambiguous-redirect failure, which
the source reports on standard error just before returning `None`. -/
def parse_file_path (env : Env) (path : Str) : Option Str :=
  let res := match_wild_card env (unfold env path)
  if res.length > 1 then none else some (res.headD [])

/-- Rust `parse_argv`: whitespace split, then tilde and wildcard expansion of
every token, flattened in place; `none` models a panic. -/
def parse_argv (env : Env) (command : Str) : Option (List Str) :=
  (split_with_chars (trim command) isWs).map
    (fun argv => argv.flatMap (fun arg => match_wild_card env (unfold env arg)))

/-- Redirect open mode. -/
inductive Mode : Type where
  | truncate
  | append
deriving DecidableEq, Repr

/-- A successfully opened redirect target file. -/
structure OpenedFile : Type where
  path : Str
  mode : Mode
deriving DecidableEq, Repr

/-- One `File::options()...open(...)` attempt: the trace entry of the opened
file (empty on an OS open failure, which the source prints and maps to
`None`) together with the resulting stream value. -/
def openAttempt (env : Env) (path : Str) (m : Mode) :
    List OpenedFile × Option OpenedFile :=
  if env.openOk path then ([⟨path, m⟩], some ⟨path, m⟩) else ([], none)

/-- Quote stripping of `locate_file_stream`: `&arg[1..arg.len()-1]` when the
argument starts with a double quote (the source would panic on the
one-character argument consisting of a lone quote; no claim touches it). -/
def stripQuotes (arg : Str) : Str :=
  if leadsWith [quoteChar] arg then (arg.drop 1).dropLast else arg

/-- Loop of `Command::locate_file_stream` over the argument vector, carrying
the redirect `flag`, the current `stream`, the rebuilt `real_argv` and a trace
of successfully opened files. A `parse_file_path` failure propagates through
`?` as a `none` second component: the scan aborts and the source leaves its
`argv` unmodified. The `flag` is reset only inside the `_` match arm, exactly
as in the source, so it stays set after a split-form target is consumed. -/
def lfsAux (env : Env) :
    List Str → Int → Option OpenedFile → List Str → List OpenedFile →
    List OpenedFile × Option (Option OpenedFile × List Str)
  | [], _, stream, realArgv, trace => (trace, some (stream, realArgv))
  | arg :: rest, flag, stream, realArgv, trace =>
    if leadsWith (str ">>") arg then
      if arg = str ">>" then lfsAux env rest 1 stream realArgv trace
      else
        match parse_file_path env (arg.drop 2) with
        | none => (trace, none)
        | some p =>
          let o := openAttempt env p .append
          lfsAux env rest flag o.2 realArgv (trace ++ o.1)
    else if leadsWith (str ">") arg then
      if arg = str ">" then lfsAux env rest (-1) stream realArgv trace
      else
        match parse_file_path env (arg.drop 1) with
        | none => (trace, none)
        | some p =>
          let o := openAttempt env p .truncate
          lfsAux env rest flag o.2 realArgv (trace ++ o.1)
    else
      let realArg := stripQuotes arg
      if flag = 1 then
        match parse_file_path env realArg with
        | none => (trace, none)
        | some p =>
          let o := openAttempt env p .append
          lfsAux env rest flag o.2 realArgv (trace ++ o.1)
      else if flag = -1 then
        match parse_file_path env realArg with
        | none => (trace, none)
        | some p =>
          let o := openAttempt env p .truncate
          lfsAux env rest flag o.2 realArgv (trace ++ o.1)
      else lfsAux env rest 0 stream (realArgv ++ [realArg]) trace

/-- Rust `Command::locate_file_stream`, instrumented with the trace of opened
files. The second component is `none` when the scan aborted through `?`
(ambiguous redirect): the caller then sees `resources = None` and the
original `argv` survives unmodified. -/
def locate_file_stream (env : Env) (argv : List Str) :
    List OpenedFile × Option (Option OpenedFile × List Str) :=
  lfsAux env argv 0 none [] []

/-- A process-launch descriptor: `Command::new(prog).args(args)` plus the
stdout and stdin wiring the filters configure. -/
structure Cmd : Type where
  prog : Str
  args : List Str
  stdoutPiped : Bool
  stdoutFile : Option OpenedFile
  stdinWired : Bool
deriving DecidableEq, Repr

/-- A spawned child; `stdoutPiped` records whether `child.stdout` holds a pipe
read end that the next segment can take. -/
structure Child : Type where
  prog : Str
  stdoutPiped : Bool
deriving DecidableEq, Repr

/-- Computation that can hit a Rust panic. -/
inductive PanicOr (α : Type) : Type where
  | panicked
  | ok (a : α)
deriving DecidableEq, Repr

/-- Rust `apply_pipe_stream_filter`: configures a piped stdout when `wstream`
and wires stdin from `prev_command.as_mut().unwrap().stdout.take()` when
`istream` — that `unwrap` panics when the previous spawn failed. -/
def apply_pipe_stream_filter (c : Cmd) (prevCommand : Option Child)
    (istream wstream : Bool) : PanicOr Cmd :=
  let c1 := if wstream then { c with stdoutPiped := true } else c
  if istream then
    match prevCommand with
    | none => .panicked
    | some ch => .ok (if ch.stdoutPiped then { c1 with stdinWired := true } else c1)
  else .ok c1

/-- Rust `apply_file_stream_filter`: a resolved file overrides any stdout
configuration (`Command::stdout` keeps only the last setting). -/
def apply_file_stream_filter (c : Cmd) (resources : Option OpenedFile) : Cmd :=
  match resources with
  | some f => { c with stdoutPiped := false, stdoutFile := some f }
  | none => c

/-- One `spawn()` attempt: on success the child records whether its stdout is
a pipe; on failure the source prints the OS error and keeps `None`. -/
def spawn (env : Env) (c : Cmd) : Option Child :=
  if env.spawnOk c.prog then some ⟨c.prog, c.stdoutPiped⟩ else none

/-- Rust `exec_normal_command`, instrumented with the trace of opened files
and the attempted launch descriptor paired with its spawn result. The pair is
`none` on the `cd` builtin path, which changes directory in-process and
spawns nothing. An empty parsed argv panics on `&argv[1..]` as in the
source. -/
def exec_normal_command (env : Env) (command : Str) :
    PanicOr (List OpenedFile × Option (Cmd × Option Child)) :=
  match parse_argv env (trim command) with
  | none => .panicked
  | some argv =>
    let l := locate_file_stream env argv
    let argv2 := match l.2 with
      | none => argv
      | some p => p.2
    let resources : Option OpenedFile := match l.2 with
      | none => none
      | some p => p.1
    match argv2 with
    | [] => .panicked
    | a0 :: restArgs =>
      if a0 = str "cd" then .ok (l.1, none)
      else
        let c := apply_file_stream_filter ⟨a0, restArgs, false, none, false⟩ resources
        .ok (l.1, some (c, spawn env c))

/-- Loop of `exec_command_with_pipes` over the pipe segments, carrying
`prev_command`, `commands_count` and the `cd`-adjusted `commands_nums` (a
`usize` in the source; its decrements never underflow in the runs modelled
here). -/
def pipesLoop (env : Env) :
    List Str → Nat → Nat → Option Child → PanicOr (Option Child)
  | [], _, _, prev => .ok prev
  | cmd :: rest, count, nums, prev =>
    match parse_argv env (trim cmd) with
    | none => .panicked
    | some argv =>
      let l := locate_file_stream env argv
      let argv2 := match l.2 with
        | none => argv
        | some p => p.2
      let resources : Option OpenedFile := match l.2 with
        | none => none
        | some p => p.1
      match argv2 with
      | [] => .panicked
      | a0 :: restArgs =>
        if a0 = str "cd" then pipesLoop env rest count (nums - 1) prev
        else
          let io := if count = 0 then (false, true)
            else if count ≠ nums - 1 then (true, true)
            else (true, false)
          match apply_pipe_stream_filter ⟨a0, restArgs, false, none, false⟩ prev io.1 io.2 with
          | .panicked => .panicked
          | .ok c1 =>
            let c2 := apply_file_stream_filter c1 resources
            pipesLoop env rest (count + 1) nums (spawn env c2)

/-- Rust `exec_command_with_pipes`. -/
def exec_command_with_pipes (env : Env) (line : Str) : PanicOr (Option Child) :=
  match split_with_strs (trim line) [str "|"] with
  | none => .panicked
  | some commands => pipesLoop env commands 0 commands.length none

/-- Rust `parse_command`: the compound-command split on `;` and `&&`. -/
def parse_command (line : Str) : Option (List Str) :=
  split_with_strs (trim line) [str ";", str "&&"]

/-- Rust `command.find("|")` as a Bool. -/
def has_pipe (command : Str) : Bool := !(matchIndices (str "|") command).isEmpty

/-- Rust `exec_commands`, abstracted to the calls it makes: for each compound
command, whether the piped executor is chosen and the text actually handed to
it. The source hands over `line` — the whole buffer — in both match arms, not
`command`. -/
def exec_commands (line : Str) : Option (List (Bool × Str)) :=
  (parse_command line).map (fun commands =>
    commands.map (fun command => (has_pipe command, line)))

/-- Environment with no glob matches, all opens and spawns succeeding. -/
def envPlain : Env := ⟨[], fun _ => [], fun _ => true, fun _ => true⟩

/-- Plain environment except that the program `fake` is not spawnable. -/
def envNoFake : Env := ⟨[], fun _ => [], fun _ => true, fun s => decide (s ≠ str "fake")⟩

/-- Environment whose filesystem matches the pattern `b*.txt` with the two
existing files `b1.txt` and `b2.txt`. -/
def envTwoB : Env :=
  ⟨[], fun s => if s = str "b*.txt" then [str "b1.txt", str "b2.txt"] else [],
   fun _ => true, fun _ => true⟩

/-- Interleaving of split pieces with the matched delimiter substrings in
ascending offset order, used to state the round-trip property of the
tokenizer. -/
def interleave : List Str → List Str → Str
  | [], ds => ds.flatten
  | p :: ps, [] => p ++ ps.flatten
  | p :: ps, d :: ds => p ++ d ++ interleave ps ds

/-- Claim-side quote-span semantics, following the wording of the spec: an
offset is inside quoting when it lies strictly inside a span obtained by
pairing consecutive quote offsets two at a time (1st with 2nd, 3rd with 4th,
and so on). -/
def spanSpecInside (s : Str) (index : Nat) : Prop :=
  ∃ p ∈ chunkPairs (quotePositions s), p.1 < index ∧ index < p.2

/-- Strong induction on the length of a list. -/
theorem list_len_ind {α : Type} {motive : List α → Prop}
    (step : ∀ l, (∀ m : List α, m.length < l.length → motive m) → motive l) :
    ∀ l, motive l := by
  have aux : ∀ n (l : List α), l.length ≤ n → motive l := by
    intro n
    induction n with
    | zero =>
      exact fun l hl => step l (fun m hm => absurd (Nat.lt_of_lt_of_le hm hl) (Nat.not_lt_zero _))
    | succ n ih => exact fun l hl => step l (fun m hm => ih m (by omega))
  exact fun l => aux l.length l (Nat.le_refl _)

theorem leadsWith_le {p l : Str} (h : leadsWith p l = true) : p.length ≤ l.length := by
  induction p generalizing l with
  | nil => simp
  | cons a ps ih =>
    cases l with
    | nil => simp [leadsWith] at h
    | cons b qs =>
      simp only [leadsWith, Bool.and_eq_true, decide_eq_true_eq] at h
      simpa [Nat.succ_le_succ_iff] using ih h.2

theorem leadsWith_take {p l : Str} (h : leadsWith p l = true) : l.take p.length = p := by
  induction p generalizing l with
  | nil => simp
  | cons a ps ih =>
    cases l with
    | nil => simp [leadsWith] at h
    | cons b qs =>
      simp only [leadsWith, Bool.and_eq_true, decide_eq_true_eq] at h
      obtain ⟨rfl, h2⟩ := h
      simp [ih h2]

theorem leadsWith_append {p l : Str} (h : leadsWith p l = true) (z : Str) :
    leadsWith p (l ++ z) = true := by
  induction p generalizing l with
  | nil => simp [leadsWith]
  | cons a ps ih =>
    cases l with
    | nil => simp [leadsWith] at h
    | cons b qs =>
      simp only [leadsWith, Bool.and_eq_true, decide_eq_true_eq] at h
      simp only [List.cons_append, leadsWith, Bool.and_eq_true, decide_eq_true_eq]
      exact ⟨h.1, ih h.2⟩

theorem slice_append_drop (s : Str) {a b : Nat} (h : a ≤ b) :
    slice s a b ++ s.drop b = s.drop a := by
  have h2 : s.drop b = (s.drop a).drop (b - a) := by
    rw [List.drop_drop]; congr 1; omega
  rw [slice, h2, List.take_append_drop]

theorem leadsWith_slice {t s : Str} {i : Nat} (h : leadsWith t (s.drop i) = true) :
    slice s i (i + t.length) = t := by
  rw [slice]
  have h2 : i + t.length - i = t.length := by omega
  rw [h2]
  exact leadsWith_take h

theorem matchIndicesAux_spec (pat : Str) :
    ∀ (fuel : Nat) (l : Str) (pos : Nat),
      (∀ i ∈ matchIndicesAux pat fuel l pos,
        pos ≤ i ∧ i - pos ≤ l.length ∧ leadsWith pat (l.drop (i - pos)) = true) ∧
      List.Pairwise (· < ·) (matchIndicesAux pat fuel l pos) := by
  intro fuel
  induction fuel with
  | zero =>
    intro l pos
    exact ⟨by simp [matchIndicesAux], by simp [matchIndicesAux]⟩
  | succ fuel ih =>
    intro l pos
    cases l with
    | nil =>
      rw [matchIndicesAux]
      by_cases hp : pat.isEmpty = true
      · rw [if_pos hp]
        refine ⟨?_, by simp⟩
        intro i hi
        rw [List.mem_singleton] at hi
        subst hi
        have hpat : pat = [] := List.isEmpty_iff.mp hp
        subst hpat
        exact ⟨Nat.le_refl _, by simp, by simp [leadsWith]⟩
      · rw [if_neg hp]
        exact ⟨by simp, by simp⟩
    | cons c rest =>
      rw [matchIndicesAux]
      by_cases hp : pat.isEmpty = true
      · rw [if_pos hp]
        have hpat : pat = [] := List.isEmpty_iff.mp hp
        have ihr := ih rest (pos + 1)
        constructor
        · intro i hi
          rcases List.mem_cons.mp hi with rfl | hi2
          · subst hpat
            exact ⟨Nat.le_refl _, by simp, by simp [leadsWith]⟩
          · obtain ⟨h1, h2, _⟩ := ihr.1 i hi2
            subst hpat
            refine ⟨by omega, ?_, by simp [leadsWith]⟩
            simp only [List.length_cons]
            omega
        · refine List.pairwise_cons.mpr ⟨?_, ihr.2⟩
          intro x hx
          have := (ihr.1 x hx).1
          omega
      · rw [if_neg hp]
        have hplen : 1 ≤ pat.length := by
          cases pat with
          | nil => simp at hp
          | cons a ps => simp
        by_cases hm : leadsWith pat (c :: rest) = true
        · rw [if_pos hm]
          have ihr := ih (rest.drop (pat.length - 1)) (pos + pat.length)
          constructor
          · intro i hi
            rcases List.mem_cons.mp hi with rfl | hi2
            · exact ⟨Nat.le_refl _, by simp, by simpa using hm⟩
            · obtain ⟨h1, h2, h3⟩ := ihr.1 i hi2
              refine ⟨by omega, ?_, ?_⟩
              · have h4 := leadsWith_le h3
                simp only [List.length_drop] at h4
                simp only [List.length_cons]
                omega
              · have hip : i - pos = (pat.length - 1 + (i - (pos + pat.length))) + 1 := by omega
                rw [hip, List.drop_succ_cons]
                rw [List.drop_drop] at h3
                exact h3
          · refine List.pairwise_cons.mpr ⟨?_, ihr.2⟩
            intro x hx
            have := (ihr.1 x hx).1
            omega
        · rw [if_neg hm]
          have ihr := ih rest (pos + 1)
          constructor
          · intro i hi
            obtain ⟨h1, h2, h3⟩ := ihr.1 i hi
            refine ⟨by omega, ?_, ?_⟩
            · simp only [List.length_cons]
              omega
            · have hip : i - pos = (i - (pos + 1)) + 1 := by omega
              rw [hip, List.drop_succ_cons]
              exact h3
          · exact ihr.2

theorem matchIndices_mem {pat s : Str} {i : Nat} (h : i ∈ matchIndices pat s) :
    i ≤ s.length ∧ leadsWith pat (s.drop i) = true := by
  have h2 := (matchIndicesAux_spec pat (s.length + 1) s 0).1 i h
  simpa using h2.2

theorem matchIndices_pairwise (pat s : Str) :
    List.Pairwise (· < ·) (matchIndices pat s) :=
  (matchIndicesAux_spec pat (s.length + 1) s 0).2

theorem filter_escapes_mem {α : Type} {s : Str} {key : α → Nat} :
    ∀ {l out : List α}, filter_escapes s key l = some out → ∀ x ∈ out, x ∈ l := by
  intro l
  induction l with
  | nil =>
    intro out h x hx
    rw [filter_escapes] at h
    cases h
    simp at hx
  | cons a l ih =>
    intro out h x hx
    rw [filter_escapes] at h
    rcases hesc : index_in_escape_scope s (key a) with _ | b
    · rw [hesc] at h
      cases h
    · rw [hesc] at h
      cases b with
      | true => exact List.mem_cons_of_mem _ (ih h x hx)
      | false =>
        rcases hrec : filter_escapes s key l with _ | out2
        · rw [hrec] at h
          cases h
        · rw [hrec] at h
          simp only [Option.map_some] at h
          cases h
          rcases List.mem_cons.mp hx with rfl | hx2
          · exact List.mem_cons_self _ _
          · exact List.mem_cons_of_mem _ (ih hrec x hx2)

theorem collect_breakpoints_mem {s : Str} :
    ∀ {tokens : List Str} {bps : List (Nat × Str)},
      collect_breakpoints s tokens = some bps →
      ∀ p ∈ bps, p.1 ∈ matchIndices p.2 s := by
  intro tokens
  induction tokens with
  | nil =>
    intro bps h p hp
    rw [collect_breakpoints] at h
    cases h
    simp at hp
  | cons t ts ih =>
    intro bps h p hp
    rw [collect_breakpoints] at h
    simp only [bind, Option.bind_eq_some, pure, Option.some_inj] at h
    obtain ⟨m, hm, r, hr, hbps⟩ := h
    subst hbps
    rcases List.mem_append.mp hp with hpm | hpr
    · have h2 := filter_escapes_mem hm p hpm
      rw [List.mem_map] at h2
      obtain ⟨i, hi, hit⟩ := h2
      cases hit
      exact hi
    · exact ih hr p hpr

theorem insertBp_mem {x : Nat × Str} :
    ∀ {l : List (Nat × Str)} {y}, y ∈ insertBp x l → y = x ∨ y ∈ l := by
  intro l
  induction l with
  | nil =>
    intro y h
    rw [insertBp] at h
    exact Or.inl (List.mem_singleton.mp h)
  | cons z zs ih =>
    intro y h
    rw [insertBp] at h
    by_cases hz : z.1 ≤ x.1
    · rw [if_pos hz] at h
      rcases List.mem_cons.mp h with rfl | h2
      · exact Or.inr (List.mem_cons_self _ _)
      · rcases ih h2 with h3 | h3
        · exact Or.inl h3
        · exact Or.inr (List.mem_cons_of_mem _ h3)
    · rw [if_neg hz] at h
      rcases List.mem_cons.mp h with rfl | h2
      · exact Or.inl rfl
      · exact Or.inr h2

theorem sortBps_mem : ∀ {l : List (Nat × Str)} {x}, x ∈ sortBps l → x ∈ l := by
  intro l
  induction l with
  | nil => intro x h; exact h
  | cons a l ih =>
    intro x h
    have h2 : x ∈ insertBp a (sortBps l) := h
    rcases insertBp_mem h2 with rfl | h3
    · exact List.mem_cons_self _ _
    · exact List.mem_cons_of_mem _ (ih h3)

theorem splitCut_spec (s : Str) :
    ∀ (bps : List (Nat × Str)) (prev : Nat),
      (∀ p ∈ bps, p.1 ≤ s.length ∧ leadsWith p.2 (s.drop p.1) = true) →
      List.Chain (fun a b => a.1 + a.2.length ≤ b.1) (prev, ([] : Str)) bps →
      ∃ ps, splitCut s prev bps = some ps ∧
        interleave ps (bps.map Prod.snd) = s.drop prev := by
  intro bps
  induction bps with
  | nil =>
    intro prev _ _
    refine ⟨_, rfl, ?_⟩
    by_cases hlt : prev < s.length
    · rw [if_pos hlt]
      simp [interleave]
    · rw [if_neg hlt]
      have hd : s.drop prev = [] := List.drop_eq_nil_iff.mpr (by omega)
      simp [interleave, hd]
  | cons hd bps ih =>
    obtain ⟨i, t⟩ := hd
    intro prev hpt hchain
    rw [List.chain_cons] at hchain
    obtain ⟨hprev, hchain2⟩ := hchain
    have hi := hpt (i, t) (List.mem_cons_self _ _)
    have hprev2 : prev ≤ i := by simpa using hprev
    have hguard : prev ≤ i ∧ i ≤ s.length := ⟨hprev2, hi.1⟩
    have hchain3 :
        List.Chain (fun a b => a.1 + a.2.length ≤ b.1) (i + t.length, ([] : Str)) bps := by
      cases bps with
      | nil => exact List.Chain.nil
      | cons b bs =>
        rw [List.chain_cons] at hchain2 ⊢
        exact ⟨by simpa using hchain2.1, hchain2.2⟩
    obtain ⟨ps, hps, hint⟩ :=
      ih (i + t.length) (fun p hp => hpt p (List.mem_cons_of_mem _ hp)) hchain3
    refine ⟨slice s prev i :: ps, ?_, ?_⟩
    · rw [splitCut, if_pos hguard, hps]
      rfl
    · simp only [List.map_cons]
      rw [interleave, hint]
      have ht : slice s i (i + t.length) = t := leadsWith_slice hi.2
      calc slice s prev i ++ t ++ s.drop (i + t.length)
          = slice s prev i ++ (t ++ s.drop (i + t.length)) := by
            rw [List.append_assoc]
        _ = slice s prev i ++ (slice s i (i + t.length) ++ s.drop (i + t.length)) := by
            rw [ht]
        _ = slice s prev i ++ s.drop i := by rw [slice_append_drop s (by omega)]
        _ = s.drop prev := slice_append_drop s hprev2

theorem chunkPairs_mem {β : Type} :
    ∀ (l : List β) (p : β × β), p ∈ chunkPairs l → p.1 ∈ l ∧ p.2 ∈ l := by
  intro l
  induction l using list_len_ind with
  | step l ih =>
    intro p hp
    rcases l with _ | ⟨a, _ | ⟨b, r⟩⟩
    · simp [chunkPairs] at hp
    · simp [chunkPairs] at hp
    · rw [chunkPairs] at hp
      rcases List.mem_cons.mp hp with rfl | hp2
      · exact ⟨List.mem_cons_self _ _, List.mem_cons_of_mem _ (List.mem_cons_self _ _)⟩
      · have h2 := ih r (by simp only [List.length_cons]; omega) p hp2
        exact ⟨List.mem_cons_of_mem _ (List.mem_cons_of_mem _ h2.1),
               List.mem_cons_of_mem _ (List.mem_cons_of_mem _ h2.2)⟩

theorem escapeScopeSpans_even :
    ∀ (l : List Nat), l.length % 2 = 0 →
      escapeScopeSpans l = some ((chunkPairs l).map (fun p => (p.1 + 1, p.2))) := by
  intro l
  induction l using list_len_ind with
  | step l ih =>
    intro h
    rcases l with _ | ⟨a, _ | ⟨b, r⟩⟩
    · simp [escapeScopeSpans, chunkPairs]
    · simp at h
    · have hr : r.length % 2 = 0 := by
        simp only [List.length_cons] at h
        omega
      rw [escapeScopeSpans, ih r (by simp only [List.length_cons]; omega) hr]
      simp [chunkPairs]

theorem pairwise_chunk_not_between :
    ∀ (l : List Nat), List.Pairwise (· < ·) l →
      ∀ i ∈ l, ∀ p ∈ chunkPairs l, ¬(p.1 < i ∧ i < p.2) := by
  intro l
  induction l using list_len_ind with
  | step l ih =>
    intro hpw i hi p hp
    rcases l with _ | ⟨a, _ | ⟨b, r⟩⟩
    · cases hi
    · simp [chunkPairs] at hp
    · rw [List.pairwise_cons] at hpw
      obtain ⟨ha, hpw2⟩ := hpw
      rw [List.pairwise_cons] at hpw2
      obtain ⟨hb, hpw3⟩ := hpw2
      rw [chunkPairs] at hp
      rcases List.mem_cons.mp hp with rfl | hp2
      · rcases List.mem_cons.mp hi with rfl | hi2
        · intro hcon; omega
        rcases List.mem_cons.mp hi2 with rfl | hi3
        · intro hcon; omega
        · have h4 := hb i hi3
          intro hcon
          omega
      · have hcomp := chunkPairs_mem r p hp2
        rcases List.mem_cons.mp hi with rfl | hi2
        · have h4 := ha p.1 (List.mem_cons_of_mem _ hcomp.1)
          intro hcon
          omega
        rcases List.mem_cons.mp hi2 with rfl | hi3
        · have h4 := hb p.1 hcomp.1
          intro hcon
          omega
        · exact ih r (by simp only [List.length_cons]; omega) hpw3 i hi3 p hp2

theorem endsWithTok_trimStart {t l : Str} (h : endsWithTok t (trimStart l) = true) :
    endsWithTok t l = true := by
  rw [endsWithTok] at h ⊢
  have hsplit : l.reverse = (trimStart l).reverse ++ (l.takeWhile isWs).reverse := by
    conv_lhs => rw [← List.takeWhile_append_dropWhile isWs l]
    rw [List.reverse_append]
    rfl
  rw [hsplit]
  exact leadsWith_append h _

theorem endsWithTok_trim_false {t l : Str} (h : endsWithTok t (trimEnd l) = false) :
    endsWithTok t (trim l) = false := by
  cases hb : endsWithTok t (trim l) with
  | false => rfl
  | true =>
    have h2 : endsWithTok t (trimEnd l) = true := endsWithTok_trimStart hb
    cases h.symm.trans h2

theorem load_step_ok {stream : List Str} {buf : Str} {n : Nat} {out : Str}
    (h : load_step stream buf = .done (.okRes n out)) :
    quoteCount out % 2 = 0 ∧
      contTokens.any (fun t => endsWithTok t (trimEnd out)) = false := by
  simp only [load_step] at h
  by_cases h1 : quoteCount (buf ++ stream.headD []) % 2 = 1
  · rw [if_pos h1] at h
    cases h
  · rw [if_neg h1] at h
    rcases h2 : catch_sytax_error (buf ++ stream.headD []) with _ | e
    · rw [h2] at h
      cases h
    · rw [h2] at h
      match e with
      | some e => simp at h
      | none =>
        by_cases h3 :
            contTokens.any (fun t => endsWithTok t (trimEnd (buf ++ stream.headD []))) = true
        · rw [if_pos h3] at h
          cases h
        · rw [if_neg h3] at h
          injection h with h4
          injection h4 with h5 h6
          subst h6
          exact ⟨by omega, by simpa using h3⟩

theorem leadsWith_cons_elim {a : Char} {p l : Str} (h : leadsWith (a :: p) l = true) :
    ∃ cs, l = a :: cs ∧ leadsWith p cs = true := by
  cases l with
  | nil => simp [leadsWith] at h
  | cons b bs =>
    simp only [leadsWith, Bool.and_eq_true, decide_eq_true_eq] at h
    exact ⟨bs, by rw [h.1], h.2⟩

theorem leadsWith_first_ne {a b : Char} {p q l : Str} (hne : b ≠ a)
    (h : leadsWith (a :: p) l = true) : leadsWith (b :: q) l = false := by
  obtain ⟨cs, rfl, _⟩ := leadsWith_cons_elim h
  simp [leadsWith, hne]

theorem leadsWith_gtgt_false {a : Str} (h : leadsWith (str ">") a = false) :
    leadsWith (str ">>") a = false := by
  cases a with
  | nil => rfl
  | cons c cs =>
    have h2 : (decide ('>' = c) && true) = false := h
    show (decide ('>' = c) && leadsWith ['>'] cs) = false
    simp only [Bool.and_true] at h2
    rw [h2, Bool.false_and]

theorem lfsAux_plain (env : Env) :
    ∀ (pre : List Str), (∀ a ∈ pre, leadsWith (str ">") a = false) →
      ∀ (rest : List Str) (stream : Option OpenedFile) (racc : List Str)
        (tr : List OpenedFile),
        lfsAux env (pre ++ rest) 0 stream racc tr =
          lfsAux env rest 0 stream (racc ++ pre.map stripQuotes) tr := by
  intro pre
  induction pre with
  | nil => intro _ rest stream racc tr; simp
  | cons a pre ih =>
    intro hpre rest stream racc tr
    have ha : leadsWith (str ">") a = false := hpre a (List.mem_cons_self _ _)
    have ha2 : leadsWith (str ">>") a = false := leadsWith_gtgt_false ha
    rw [List.cons_append, lfsAux]
    simp only [ha2, ha, Bool.false_eq_true, if_false]
    rw [if_neg (by decide), if_neg (by decide)]
    rw [ih (fun x hx => hpre x (List.mem_cons_of_mem _ hx))]
    simp [List.append_assoc]

theorem lfsAux_abort (env : Env) {pat : Str} (hpat : leadsWith (str ">") pat = false)
    (hpat0 : pat ≠ []) (hamb : parse_file_path env pat = none) :
    ∀ (rest : List Str) (stream : Option OpenedFile) (racc : List Str)
      (tr : List OpenedFile),
      lfsAux env (('>' :: pat) :: rest) 0 stream racc tr = (tr, none) := by
  intro rest stream racc tr
  have h1 : leadsWith (str ">>") ('>' :: pat) = false := by
    have he : leadsWith (str ">>") ('>' :: pat) =
        (decide ('>' = '>') && leadsWith (str ">") pat) := rfl
    rw [he, hpat, Bool.and_false]
  have h2 : leadsWith (str ">") ('>' :: pat) = true := rfl
  have h3 : ¬(('>' :: pat) = str ">") := by
    intro h
    exact hpat0 (congrArg List.tail h)
  rw [lfsAux]
  simp only [h1, Bool.false_eq_true, if_false]
  rw [if_pos h2, if_neg h3]
  simp only [List.drop_one, List.tail_cons, hamb]

/-- C1 (code-bug evidence): for the input line `a ; b`, `exec_commands` does
split the line into two compound commands and run one (non-piped) execution
per compound command, but it hands the WHOLE line text to both executions —
so each execution parses the full line and spawns program `a` with the
literal arguments `;` and `b`, instead of running `a` and then `b`. -/
theorem claim1_whole_line_executed :
    exec_commands (str "a ; b\n") =
      some [(false, str "a ; b\n"), (false, str "a ; b\n")] ∧
    exec_normal_command envPlain (str "a ; b\n") =
      .ok ([], some (⟨str "a", [str ";", str "b"], false, none, false⟩,
        some ⟨str "a", false⟩)) :=
  ⟨rfl, rfl⟩

/-- C2 counterexample: for the argument vector of `cat a.txt >b*.txt` in a
filesystem where `b*.txt` matches the two files `b1.txt` and `b2.txt`, the
ambiguous redirect is detected (the redirect scan aborts, no file is opened —
the trace is empty), yet the segment is NOT aborted: a process is spawned,
with the original unmodified argv including the redirect token, refuting the
claim that no process is spawned for that segment. -/
theorem claim2_counterexample :
    exec_normal_command envTwoB (str "cat a.txt >b*.txt") =
      .ok ([], some (⟨str "cat", [str "a.txt", str ">b*.txt"], false, none, false⟩,
        some ⟨str "cat", false⟩)) :=
  rfl

/-- C2 amended: whenever the (expanded) argument vector is a run of
non-redirect arguments followed by a fused output redirection `>pat` whose
target pattern wildcard-expands to more than one path, resolution reports the
ambiguous-redirect error (`parse_file_path` returns `None`), no file is
opened (empty trace), and the segment's process is nevertheless spawned, with
the argument vector left exactly as it was before redirection extraction
(redirect token included) and with no output redirection applied. -/
theorem claim2_ambiguous_redirect_spawns (env : Env) (command p0 pat : Str)
    (pre rest : List Str)
    (hargv : parse_argv env (trim command) = some (p0 :: (pre ++ ('>' :: pat) :: rest)))
    (hpre : ∀ a ∈ p0 :: pre, leadsWith (str ">") a = false)
    (hcd : ¬(p0 = str "cd"))
    (hpat : leadsWith (str ">") pat = false) (hpat0 : pat ≠ [])
    (hamb : (match_wild_card env (unfold env pat)).length > 1)
    (hspawn : env.spawnOk p0 = true) :
    parse_file_path env pat = none ∧
    exec_normal_command env command =
      .ok ([], some (⟨p0, pre ++ ('>' :: pat) :: rest, false, none, false⟩,
        some ⟨p0, false⟩)) := by
  have hpfp : parse_file_path env pat = none := by
    simp only [parse_file_path]
    rw [if_pos hamb]
  refine ⟨hpfp, ?_⟩
  have hloc : locate_file_stream env (p0 :: (pre ++ ('>' :: pat) :: rest)) = ([], none) := by
    have hsplit : p0 :: (pre ++ ('>' :: pat) :: rest) =
        (p0 :: pre) ++ (('>' :: pat) :: rest) := by simp
    rw [locate_file_stream, hsplit, lfsAux_plain env (p0 :: pre) hpre,
      lfsAux_abort env hpat hpat0 hpfp]
  simp only [exec_normal_command, hargv, hloc]
  rw [if_neg hcd]
  simp only [apply_file_stream_filter, spawn, hspawn, if_true]

/-- C2 witness: the amended statement instantiated on the scenario
`cat a.txt >b*.txt` with `b*.txt` matching `b1.txt` and `b2.txt`. -/
theorem claim2_witness :
    parse_file_path envTwoB (str "b*.txt") = none ∧
    exec_normal_command envTwoB (str "cat a.txt >b*.txt") =
      .ok ([], some (⟨str "cat", [str "a.txt"] ++ ('>' :: str "b*.txt") :: [], false,
        none, false⟩, some ⟨str "cat", false⟩)) :=
  claim2_ambiguous_redirect_spawns envTwoB (str "cat a.txt >b*.txt") (str "cat")
    (str "b*.txt") [str "a.txt"] [] (by decide) (by decide) (by decide) (by decide)
    (by decide) (by decide) (by decide)

/-- C3 (code-bug evidence): in the pipeline `fake | wc -l` where spawning
`fake` fails, the failure is reported, but the spawn attempt for the next
segment does NOT proceed: wiring `wc`'s stdin calls
`prev_command.as_mut().unwrap()` on `None` and the interpreter panics, so the
pipeline returns no handle and the loop does not survive. -/
theorem claim3_spawn_failure_panics :
    envNoFake.spawnOk (str "fake") = false ∧
    exec_command_with_pipes envNoFake (str "fake | wc -l") = .panicked :=
  ⟨rfl, rfl⟩

/-- C4 counterexample: at end of input with the accumulated buffer `"abc`
(odd quote count), `load_command_line` re-reads zero bytes forever — the
interactive loop never terminates, refuting that a zero-byte read at any
point of assembly terminates the loop. -/
theorem claim4_counterexample : loadDiverges [] (str "\x22abc\n") := by
  intro fuel
  induction fuel with
  | zero => rfl
  | succ fuel ih =>
    have hstep : load_step [] (str "\x22abc\n") = .again [] (str "\x22abc\n") := by decide
    simp only [load_command_line, hstep]
    exact ih

/-- C4 amended: a zero-byte physical read terminates the whole interactive
loop when it leaves the accumulated buffer complete (even quote count, no
syntax error, trimmed text not ending in a continuation operator): the load
returns `Ok(0)` and `main` halts. When the buffer is incomplete at end of
input, assembly instead re-reads forever (see the counterexample). -/
theorem claim4_eof_completes (buf : Str) (fuel : Nat)
    (h1 : quoteCount buf % 2 = 0)
    (h2 : catch_sytax_error buf = some none)
    (h3 : contTokens.any (fun t => endsWithTok t (trimEnd buf)) = false) :
    load_command_line (fuel + 1) [] buf = some (.okRes 0 buf) ∧
      main_dispatch (.okRes 0 buf) = .halt := by
  have hstep : load_step [] buf = .done (.okRes 0 buf) := by
    simp only [load_step, List.headD_nil, List.tail_nil, List.append_nil, List.length_nil]
    rw [if_neg (by omega), h2, if_neg (by simp [h3])]
  constructor
  · simp only [load_command_line, hstep]
  · rfl

/-- C4 witness: the amended statement at the complete buffer `ls`. -/
theorem claim4_witness :
    quoteCount (str "ls\n") % 2 = 0 ∧
    load_command_line 1 [] (str "ls\n") = some (.okRes 0 (str "ls\n")) ∧
    main_dispatch (.okRes 0 (str "ls\n")) = .halt := by
  refine ⟨by decide, ?_, ?_⟩
  · exact (claim4_eof_completes (str "ls\n") 0 (by decide) (by decide) (by decide)).1
  · exact (claim4_eof_completes (str "ls\n") 0 (by decide) (by decide) (by decide)).2

/-- C5 (code-bug evidence): for the expanded argument vector of
`echo hi > a.txt b.txt`, the standalone `>` consumes `a.txt` as a target, but
because the `flag` reset sits in the wrong match arm, the following argument
`b.txt` is ALSO opened (both files are created and truncated), the final
redirect stream is `b.txt`, and `b.txt` is removed from the argv — refuting
that exactly the next argument is taken as target and later arguments are
kept. -/
theorem claim5_flag_never_reset :
    locate_file_stream envPlain [str "echo", str "hi", str ">", str "a.txt", str "b.txt"] =
      ([⟨str "a.txt", .truncate⟩, ⟨str "b.txt", .truncate⟩],
        some (some ⟨str "b.txt", .truncate⟩, [str "echo", str "hi"])) :=
  rfl

/-- C6: when after a physical read the accumulated buffer has an odd number
of double quotes, assembly requests another physical line instead of
completing; and every buffer `load_command_line` returns as `Ok` has an even
quote count and, trimmed, does not end with any of the continuation operators
`|`, `&&`, `>>`, `<<`, `>`, `<`. -/
theorem claim6_assembly_invariants :
    (∀ (l : Str) (rest : List Str) (buf : Str), quoteCount (buf ++ l) % 2 = 1 →
      load_step (l :: rest) buf = .again rest (buf ++ l)) ∧
    (∀ (fuel : Nat) (stream : List Str) (buf : Str) (n : Nat) (out : Str),
      load_command_line fuel stream buf = some (.okRes n out) →
      quoteCount out % 2 = 0 ∧ ∀ t ∈ contTokens, endsWithTok t (trim out) = false) := by
  constructor
  · intro l rest buf h
    simp only [load_step, List.headD_cons, List.tail_cons]
    rw [if_pos h]
  · intro fuel
    induction fuel with
    | zero =>
      intro stream buf n out h
      simp [load_command_line] at h
    | succ fuel ih =>
      intro stream buf n out h
      simp only [load_command_line] at h
      cases hstep : load_step stream buf with
      | done r =>
        rw [hstep] at h
        simp only [Option.some_inj] at h
        have hsteq : load_step stream buf = .done (.okRes n out) := by rw [hstep, h]
        have h2 := load_step_ok hsteq
        refine ⟨h2.1, fun t ht => ?_⟩
        have h3 : endsWithTok t (trimEnd out) = false := by
          simpa using List.any_eq_false.mp h2.2 t ht
        exact endsWithTok_trim_false h3
      | again rs rb =>
        rw [hstep] at h
        exact ih rs rb n out h

/-- C6 witness: the odd-quote buffer `"a` makes assembly read again, and the
complete buffer `ls` satisfies both invariants. -/
theorem claim6_witness :
    load_step [str "\x22a\n"] [] = .again [] (str "\x22a\n") ∧
    (quoteCount (str "ls\n") % 2 = 0 ∧
      ∀ t ∈ contTokens, endsWithTok t (trim (str "ls\n")) = false) := by
  constructor
  · exact claim6_assembly_invariants.1 (str "\x22a\n") [] [] (by decide)
  · exact claim6_assembly_invariants.2 1 [] (str "ls\n") 0 (str "ls\n") (by decide)

/-- C7: in the operator scan of the syntax validator, the string `a >> b`
yields exactly one recorded operator occurrence — the two-character `>>` at
offset 2 — never two adjacent `>` occurrences (the single-character matches at
offsets 2 and 3 are both discarded as duplicates of the recorded `>>`), and
the line passes validation with no spurious empty-operand error. -/
theorem claim7_merge_rule :
    scanOps (str "a >> b") = some [(2, str ">>")] ∧
    catch_sytax_error (str "a >> b") = some none :=
  ⟨rfl, rfl⟩

/-- C8: round trip of the operator split. For every string and token list
whose recorded non-quoted match occurrences (the breakpoints, which exist
whenever the quote scan does not panic) are pairwise non-overlapping in
ascending offset order, the split succeeds and re-concatenating the returned
tokens interleaved with the matched delimiter substrings in ascending offset
order reproduces the input string exactly. -/
theorem claim8_round_trip (s : Str) (tokens : List Str) (bps : List (Nat × Str))
    (hc : collect_breakpoints s tokens = some bps)
    (hchain : List.Chain' (fun a b => a.1 + a.2.length ≤ b.1) (sortBps bps)) :
    ∃ ps, split_with_strs s tokens = some ps ∧
      interleave ps ((sortBps bps).map Prod.snd) = s := by
  have hpt : ∀ p ∈ sortBps bps, p.1 ≤ s.length ∧ leadsWith p.2 (s.drop p.1) = true := by
    intro p hp
    exact matchIndices_mem (collect_breakpoints_mem hc p (sortBps_mem hp))
  have hchain0 :
      List.Chain (fun a b => a.1 + a.2.length ≤ b.1) (0, ([] : Str)) (sortBps bps) := by
    cases hsb : sortBps bps with
    | nil => exact List.Chain.nil
    | cons b bs =>
      rw [List.chain_cons]
      refine ⟨by simp, ?_⟩
      have h2 := hchain
      rw [hsb] at h2
      exact h2
  obtain ⟨ps, hps, hint⟩ := splitCut_spec s (sortBps bps) 0 hpt hchain0
  refine ⟨ps, ?_, by simpa using hint⟩
  simp only [split_with_strs, hc, Option.bind_eq_bind, Option.some_bind]
  exact hps

/-- C8 witness: the round trip instantiated on `a;b && c` with the actual
compound-command token set. -/
theorem claim8_witness :
    ∃ ps, split_with_strs (str "a;b && c") [str ";", str "&&"] = some ps ∧
      interleave ps ((sortBps [(1, str ";"), (4, str "&&")]).map Prod.snd) =
        str "a;b && c" :=
  claim8_round_trip (str "a;b && c") [str ";", str "&&"]
    [(1, str ";"), (4, str "&&")] (by decide)
    (List.Chain.cons (by decide) List.Chain.nil)

/-- C9: every line whose trimmed text starts with `;`, `|` or `&&` makes the
syntax validator fail, naming exactly that token; reading such a line (with
balanced quotes) makes `load_command_line` return that error, which `main`
only reports — no `exec_commands` call, so no process is spawned. -/
theorem claim9_leading_operator (l t : Str) (ht : t ∈ leadTokens)
    (hlead : leadsWith t (trim l) = true) (hq : quoteCount l % 2 = 0) :
    catch_sytax_error l = some (some (errMsg t)) ∧
    (∀ rest : List Str,
      load_command_line 1 (l :: rest) [] = some (.errRes (errMsg t))) ∧
    main_dispatch (.errRes (errMsg t)) = .reportError (errMsg t) := by
  have hcatch : catch_sytax_error l = some (some (errMsg t)) := by
    have hmem : t = str ";" ∨ t = str "|" ∨ t = str "&&" := by
      simpa [leadTokens] using ht
    rcases hmem with rfl | rfl | rfl
    · simp only [catch_sytax_error]
      rw [if_pos hlead]
    · have h1 : leadsWith (str ";") (trim l) = false :=
        leadsWith_first_ne (by decide) hlead
      simp only [catch_sytax_error]
      rw [if_neg (by simp [h1]), if_pos hlead]
    · have h1 : leadsWith (str ";") (trim l) = false :=
        leadsWith_first_ne (by decide) hlead
      have h2 : leadsWith (str "|") (trim l) = false :=
        leadsWith_first_ne (by decide) hlead
      simp only [catch_sytax_error]
      rw [if_neg (by simp [h1]), if_neg (by simp [h2]), if_pos hlead]
  refine ⟨hcatch, ?_, rfl⟩
  intro rest
  have hstep : load_step (l :: rest) [] = .done (.errRes (errMsg t)) := by
    simp only [load_step, List.headD_cons, List.tail_cons, List.nil_append]
    rw [if_neg (by omega), hcatch]
  simp only [load_command_line, hstep]

/-- C9 witness: the scenario `| ls` — syntax error naming `|`, error result
from the loader, only reported by `main`. -/
theorem claim9_witness :
    catch_sytax_error (str "| ls\n") = some (some (errMsg (str "|"))) ∧
    load_command_line 1 [str "| ls\n"] [] = some (.errRes (errMsg (str "|"))) ∧
    main_dispatch (.errRes (errMsg (str "|"))) = .reportError (errMsg (str "|")) := by
  obtain ⟨h1, h2, h3⟩ := claim9_leading_operator (str "| ls\n") (str "|")
    (by decide) (by decide) (by decide)
  exact ⟨h1, h2 [], h3⟩

/-- C10 counterexample: on the string `a"b`, whose quote count is odd, the
quote scanner panics (`pair[1]` on a dangling chunk) instead of returning —
it is not a total function on every string, refuting the claim as stated. -/
theorem claim10_counterexample : index_in_escape_scope (str "a\x22b") 0 = none :=
  rfl

/-- C10 amended: restricted to strings with an even quote count (the only
ones the program ever scans), the quote scanner is total and returns `true`
exactly when the offset lies strictly inside a span obtained by pairing
consecutive quote offsets (1st with 2nd, 3rd with 4th, and so on), and it
returns `false` on the offset of a quote character itself. -/
theorem claim10_quote_scanner (s : Str) (index : Nat) (hq : quoteCount s % 2 = 0) :
    (index_in_escape_scope s index = some true ↔ spanSpecInside s index) ∧
    (index ∈ quotePositions s → index_in_escape_scope s index = some false) := by
  have hspans := escapeScopeSpans_even (quotePositions s) hq
  constructor
  · rw [index_in_escape_scope, hspans]
    simp only [Option.map_some', Option.some_inj]
    rw [List.any_map, List.any_eq_true]
    constructor
    · rintro ⟨p, hp, hcond⟩
      refine ⟨p, hp, ?_⟩
      simp only [Function.comp, Bool.and_eq_true, decide_eq_true_eq] at hcond
      omega
    · rintro ⟨p, hp, h1, h2⟩
      refine ⟨p, hp, ?_⟩
      simp only [Function.comp, Bool.and_eq_true, decide_eq_true_eq]
      omega
  · intro hmem
    rw [index_in_escape_scope, hspans]
    have hfalse : ((chunkPairs (quotePositions s)).map (fun p => (p.1 + 1, p.2))).any
        (fun lr => decide (lr.1 ≤ index) && decide (index < lr.2)) = false := by
      rw [List.any_map, List.any_eq_false]
      intro p hp
      have hnb := pairwise_chunk_not_between (quotePositions s)
        (matchIndices_pairwise _ _) index hmem p hp
      simp only [Function.comp, Bool.and_eq_true, decide_eq_true_eq]
      intro hcon
      exact hnb ⟨by omega, hcon.2⟩
    simp only [Option.map_some', hfalse]

/-- C10 witness: the amended statement on `a"bc"d` at offset 2 (inside the
span between the quotes at offsets 1 and 4). -/
theorem claim10_witness :
    quoteCount (str "a\x22bc\x22d") % 2 = 0 ∧
    ((index_in_escape_scope (str "a\x22bc\x22d") 2 = some true ↔
        spanSpecInside (str "a\x22bc\x22d") 2) ∧
      (2 ∈ quotePositions (str "a\x22bc\x22d") →
        index_in_escape_scope (str "a\x22bc\x22d") 2 = some false)) :=
  ⟨by decide, claim10_quote_scanner (str "a\x22bc\x22d") 2 (by decide)⟩

end Shell
